import Mathlib

/-!
Shallow embedding of the `cside-event-tracker` in-memory event storage engine
(`src/storage/in_memory_storage.rs` together with the types of `src/event.rs`
and `src/storage/mod.rs`), and verification of its specification claims.

Modelling conventions:
* `u64`/`usize` values (`Timestamp`, the internal event id counter, lengths)
  are modelled as `Nat`; the engine only compares and increments them, it
  performs no wrapping arithmetic.
* `serde_json::value::Value` payloads are opaque to the engine (never
  inspected, only stored and returned verbatim); we model a payload as an
  opaque value with decidable equality (its serialized text).
* `AHashMap` is modelled as an association list with first-match lookup and
  replace-or-append insertion; the engine never iterates a hash map, so only
  the lookup/insert semantics matter.
* `BTreeMap<Timestamp, Vec<EventId>>` is modelled as a list of
  `(timestamp, bucket)` pairs kept sorted by strictly increasing timestamp;
  `entry(ts).or_default().push(id)` becomes `btreePush`. `BTreeMap::range`
  panics when both bounds are present with start > end and the map is
  non-empty; a Rust panic has no value-level counterpart here, so the panic
  condition of `get_events` is modelled separately and exactly by the
  predicate `get_events_panics`, while `btreeRange` computes the entries a
  non-panicking range call yields (the key-filtered entries in ascending
  order). Statements about queries with both bounds present are made under
  the no-panic condition.
* The `RwLock` and the async boundary disappear in this sequential model:
  `store` is state-passing, and `get_events` takes the state and also returns
  it, so that the absence of mutation by a read is a provable statement
  rather than a typing convention.
* The global `NEXT_EVENT_ID: AtomicU64` (initialised to 1) becomes the
  `next_event_id` field of the storage state.
* Rust `Result<T, E>` becomes `Except E T`.
-/

set_option autoImplicit false

namespace CsideEventTracker

/-- `pub type Timestamp = u64;` (`src/event.rs`). -/
abbrev Timestamp := Nat

/-- `type EventId = u64;` — the internal identifier for events. -/
abbrev EventId := Nat

/-- The event value type (`src/event.rs`): a type tag, a caller-supplied
timestamp, and a payload that the engine treats as opaque. -/
structure Event where
  event_type : String
  timestamp : Timestamp
  payload : String
  deriving DecidableEq, Repr

/-- `StoreError` (`src/storage/mod.rs`). -/
inductive StoreError where
  | InvalidEventType (label : String)
  deriving DecidableEq, Repr

/-- `RetrieveError` (`src/storage/mod.rs`). -/
inductive RetrieveError where
  | ResultTooLarge (maximum : Nat)
  deriving DecidableEq, Repr

/-- `const MAX_QUERIED_EVENTS: usize = 4;` — the made-up restriction used to
demonstrate error handling. -/
def MAX_QUERIED_EVENTS : Nat := 4

/-- First-match lookup in an association list: the model of `AHashMap::get`. -/
def assocGet {α β : Type} [DecidableEq α] (m : List (α × β)) (k : α) : Option β :=
  match m with
  | [] => none
  | (k₁, v₁) :: rest => if k₁ = k then some v₁ else assocGet rest k

/-- Replace-or-append insertion into an association list: the model of
`AHashMap::insert`. -/
def assocInsert {α β : Type} [DecidableEq α] (m : List (α × β)) (k : α) (v : β) :
    List (α × β) :=
  match m with
  | [] => [(k, v)]
  | (k₁, v₁) :: rest => if k₁ = k then (k₁, v) :: rest else (k₁, v₁) :: assocInsert rest k v

/-- The model of `BTreeMap<Timestamp, Vec<EventId>>`: `(key, bucket)` pairs
sorted by strictly increasing key. -/
abbrev TsIndex := List (Timestamp × List EventId)

/-- The model of `map.entry(ts).or_default().push(eid)` on a sorted
`BTreeMap<Timestamp, Vec<EventId>>`: append `eid` to the bucket of key `ts`,
creating the bucket at its sorted position when absent. -/
def btreePush (m : TsIndex) (ts : Timestamp) (eid : EventId) : TsIndex :=
  match m with
  | [] => [(ts, [eid])]
  | (t, ids) :: rest =>
    if ts < t then (ts, [eid]) :: (t, ids) :: rest
    else if ts = t then (t, ids ++ [eid]) :: rest
    else (t, ids) :: btreePush rest ts eid

/-- Whether a timestamp lies within the query bounds: `Bound::Included` for a
present bound, `Bound::Unbounded` for an absent one (`get_events`, lines
103–111). -/
def inRange (start stop : Option Timestamp) (ts : Timestamp) : Bool :=
  (match start with
   | some a => decide (a ≤ ts)
   | none => true)
  && (match stop with
      | some b => decide (ts ≤ b)
      | none => true)

/-- The entries a non-panicking `events.range((start, end))` call yields on a
key-sorted `TsIndex`: those whose key lies within the bounds, in ascending
key order. `BTreeMap::range` itself panics when both bounds are present with
start > end and the map is non-empty; that panic condition is modelled
separately by `get_events_panics`, and the value computed here describes the
scan only on inputs where the panic does not fire. -/
def btreeRange (m : TsIndex) (start stop : Option Timestamp) : TsIndex :=
  m.filter (fun p => inRange start stop p.1)

/-- The model of `AHashMap<String, BTreeMap<Timestamp, Vec<EventId>>>`. -/
abbrev TypeIndex := List (String × TsIndex)

/-- `events_by_type_by_timestamp.entry(event_type).or_default()
.entry(timestamp).or_default().push(event_id)` (`store`, lines 67–73). -/
def typeIdxPush (m : TypeIndex) (t : String) (ts : Timestamp) (eid : EventId) :
    TypeIndex :=
  match m with
  | [] => [(t, btreePush [] ts eid)]
  | (t₁, b) :: rest =>
    if t₁ = t then (t₁, btreePush b ts eid) :: rest
    else (t₁, b) :: typeIdxPush rest t ts eid

/-- `struct IndexedEvents`: the three synchronized indexes over the same
event set. -/
structure IndexedEvents where
  event_by_id : List (EventId × Event)
  events_by_timestamp : TsIndex
  events_by_type_by_timestamp : TypeIndex
  deriving DecidableEq, Repr

/-- The full engine state: the `IndexedEvents` behind the lock together with
the `NEXT_EVENT_ID` counter (initialised to 1). -/
structure InMemoryStorage where
  next_event_id : EventId
  events : IndexedEvents
  deriving DecidableEq, Repr

/-- `InMemoryStorage::new()` with the counter at its initial value 1. -/
def initialStorage : InMemoryStorage :=
  { next_event_id := 1
    events :=
      { event_by_id := []
        events_by_timestamp := []
        events_by_type_by_timestamp := [] } }

/-- `Storage::store` for `InMemoryStorage` (lines 55–81): reject the event
type `"winter wrap up"` without touching the state; otherwise allocate the
next internal id and insert into all three indexes. -/
def store (s : InMemoryStorage) (event : Event) :
    Except StoreError Unit × InMemoryStorage :=
  if event.event_type = "winter wrap up" then
    (Except.error (StoreError.InvalidEventType event.event_type), s)
  else
    let event_id := s.next_event_id
    let ev := s.events
    (Except.ok (),
      { next_event_id := event_id + 1
        events :=
          { event_by_id := assocInsert ev.event_by_id event_id event
            events_by_timestamp := btreePush ev.events_by_timestamp event.timestamp event_id
            events_by_type_by_timestamp :=
              typeIdxPush ev.events_by_type_by_timestamp event.event_type
                event.timestamp event_id } })

/-- The id-resolving flat map of `get_events` (lines 114–121): visit the
range's buckets in order, and within each bucket resolve every id through
`event_by_id`, silently skipping ids with no backing event (`flat_map` over
an `Option`). -/
def resolveBuckets (event_by_id : List (EventId × Event)) (buckets : TsIndex) :
    List Event :=
  buckets.flatMap fun p => p.2.filterMap fun eid => assocGet event_by_id eid

/-- The tail of `get_events` (lines 114–130): `take(MAX_QUERIED_EVENTS + 1)`,
`collect`, and the size check producing `ResultTooLarge`. -/
def capResult (scanned : List Event) : Except RetrieveError (List Event) :=
  let result := scanned.take (MAX_QUERIED_EVENTS + 1)
  if result.length > MAX_QUERIED_EVENTS then
    Except.error (RetrieveError.ResultTooLarge MAX_QUERIED_EVENTS)
  else
    Except.ok result

/-- `Storage::get_events` for `InMemoryStorage` (lines 84–131). The Rust
parameter `end` is called `stop` here (`end` is a Lean keyword). The state is
returned alongside the result: the Rust function only takes the read lock,
which this model renders as returning the state it was given. The value
computed here models a non-panicking run; the inputs on which the Rust
function instead panics inside `BTreeMap::range` are captured exactly by
`get_events_panics` below. -/
def get_events (s : InMemoryStorage) (event_type : Option String)
    (start stop : Option Timestamp) :
    Except RetrieveError (List Event) × InMemoryStorage :=
  match event_type with
  | some t =>
    match assocGet s.events.events_by_type_by_timestamp t with
    | none => (Except.ok [], s)
    | some events =>
      (capResult (resolveBuckets s.events.event_by_id (btreeRange events start stop)), s)
  | none =>
    (capResult
      (resolveBuckets s.events.event_by_id
        (btreeRange s.events.events_by_timestamp start stop)), s)

/-- Exactly when the Rust `get_events` panics (lines 94–115): an unknown type
filter returns `Ok(vec![])` before the range is built (line 97) and so never
panics; otherwise the bounds are handed to `events.range((start, end))`
(line 115), and `BTreeMap::range` panics with "range start is greater than
range end in BTreeMap" when both bounds are present with start > end and the
scanned map is non-empty (on an empty map the range is never searched and no
panic occurs). -/
def get_events_panics (s : InMemoryStorage) (event_type : Option String)
    (start stop : Option Timestamp) : Bool :=
  let rangePanics : TsIndex → Bool := fun events =>
    !events.isEmpty &&
      (match start, stop with
       | some a, some b => decide (b < a)
       | _, _ => false)
  match event_type with
  | some t =>
    match assocGet s.events.events_by_type_by_timestamp t with
    | none => false
    | some events => rangePanics events
  | none => rangePanics s.events.events_by_timestamp

/-- Run a sequence of `store` calls against the freshly created storage,
discarding the per-call results: the reachable states of the engine. -/
def runStores (hist : List Event) : InMemoryStorage :=
  hist.foldl (fun s e => (store s e).2) initialStorage

/-- The events of a submission history that the acceptance policy lets
through (`store` rejects exactly the type `"winter wrap up"`). -/
def acceptedEvents (hist : List Event) : List Event :=
  hist.filter fun e => decide (e.event_type ≠ "winter wrap up")

/-- Whether an event matches a query: exact type match when a filter is
present, and its timestamp within the inclusive bounds. -/
def matchesQuery (event_type : Option String) (start stop : Option Timestamp)
    (e : Event) : Bool :=
  (match event_type with
   | some t => decide (e.event_type = t)
   | none => true)
  && inRange start stop e.timestamp

/-- Insert an event into a list ordered by timestamp, after every event of
timestamp less than or equal to its own: the position a newly stored event
occupies in a query result (its id is the largest in its bucket). -/
def insertByTs (e : Event) : List Event → List Event
  | [] => [e]
  | x :: xs => if x.timestamp ≤ e.timestamp then x :: insertByTs e xs else e :: x :: xs

/-- Stable sort by timestamp, realised as repeated `insertByTs`: events are
ordered by timestamp ascending and, within equal timestamps, by their order
in the input list. -/
def sortByTs (l : List Event) : List Event :=
  l.foldl (fun acc e => insertByTs e acc) []

/-- The specification-level answer of a query against a submission history:
the accepted events matching the filter and bounds, in timestamp-then-
insertion order. -/
def specMatches (hist : List Event) (event_type : Option String)
    (start stop : Option Timestamp) : List Event :=
  sortByTs ((acceptedEvents hist).filter (matchesQuery event_type start stop))

/-- The uncapped scan of `get_events`: the full list of events the iterator
chain of lines 114–121 would produce before `take`. -/
def matchingEvents (s : InMemoryStorage) (event_type : Option String)
    (start stop : Option Timestamp) : List Event :=
  match event_type with
  | some t =>
    match assocGet s.events.events_by_type_by_timestamp t with
    | none => []
    | some events => resolveBuckets s.events.event_by_id (btreeRange events start stop)
  | none => resolveBuckets s.events.event_by_id (btreeRange s.events.events_by_timestamp start stop)

/-- All ids stored in a timestamp index, bucket by bucket. -/
def tsIndexIds (m : TsIndex) : List EventId :=
  m.flatMap fun p => p.2

/-- How many times an id occurs in a timestamp index. -/
def tsIndexCount (m : TsIndex) (i : EventId) : Nat :=
  (tsIndexIds m).count i

/-- All ids stored in a per-type index, chain by chain. -/
def typeIndexIds (m : TypeIndex) : List EventId :=
  m.flatMap fun q => tsIndexIds q.2

/-- How many times an id occurs in a per-type index. -/
def typeIndexCount (m : TypeIndex) (i : EventId) : Nat :=
  (typeIndexIds m).count i

/-! ### Association-list lemmas -/

theorem assocGet_assocInsert {α β : Type} [DecidableEq α] (m : List (α × β)) (k k₂ : α) (v : β) :
    assocGet (assocInsert m k v) k₂ = if k₂ = k then some v else assocGet m k₂ := by
  induction m with
  | nil =>
    by_cases h : k₂ = k
    · subst h; simp [assocGet, assocInsert]
    · simp [assocGet, assocInsert, h, Ne.symm h]
  | cons hd tl ih =>
    obtain ⟨k₁, v₁⟩ := hd
    by_cases h₁ : k₁ = k
    · subst h₁
      by_cases h₂ : k₂ = k₁
      · subst h₂; simp [assocGet, assocInsert]
      · simp [assocGet, assocInsert, h₂, Ne.symm h₂]
    · by_cases h₂ : k₂ = k₁
      · subst h₂
        simp [assocGet, assocInsert, h₁, Ne.symm h₁]
      · simp [assocGet, assocInsert, h₁, h₂, Ne.symm h₂, ih]

theorem assocGet_mem {α β : Type} [DecidableEq α] {m : List (α × β)} {k : α} {v : β}
    (h : assocGet m k = some v) : (k, v) ∈ m := by
  induction m with
  | nil => simp [assocGet] at h
  | cons hd tl ih =>
    obtain ⟨k₁, v₁⟩ := hd
    simp only [assocGet] at h
    split at h
    · rename_i heq
      cases h
      subst heq
      exact List.mem_cons_self _ _
    · exact List.mem_cons_of_mem _ (ih h)

theorem assocInsert_of_fresh {α β : Type} [DecidableEq α] {m : List (α × β)} {k : α} (v : β)
    (h : ∀ kv ∈ m, kv.1 ≠ k) : assocInsert m k v = m ++ [(k, v)] := by
  induction m with
  | nil => rfl
  | cons hd tl ih =>
    obtain ⟨k₁, v₁⟩ := hd
    have hk₁ : k₁ ≠ k := h (k₁, v₁) (List.mem_cons_self _ _)
    simp only [assocInsert, if_neg hk₁, List.cons_append, List.cons.injEq, true_and]
    exact ih fun kv hkv => h kv (List.mem_cons_of_mem _ hkv)

/-! ### `btreePush` lemmas -/

theorem mem_btreePush {m : TsIndex} {ts : Timestamp} {eid : EventId} :
    ∀ p ∈ btreePush m ts eid,
      p ∈ m ∨ ∃ ids₀, (ids₀ = [] ∨ (ts, ids₀) ∈ m) ∧ p = (ts, ids₀ ++ [eid]) := by
  induction m with
  | nil =>
    intro p hp
    simp only [btreePush, List.mem_singleton] at hp
    exact Or.inr ⟨[], Or.inl rfl, by simpa using hp⟩
  | cons hd tl ih =>
    obtain ⟨t, ids⟩ := hd
    intro p hp
    simp only [btreePush] at hp
    split_ifs at hp with h₁ h₂
    · rcases List.mem_cons.mp hp with h | h
      · exact Or.inr ⟨[], Or.inl rfl, by simpa using h⟩
      · exact Or.inl h
    · subst h₂
      rcases List.mem_cons.mp hp with h | h
      · exact Or.inr ⟨ids, Or.inr (List.mem_cons_self _ _), by simpa using h⟩
      · exact Or.inl (List.mem_cons_of_mem _ h)
    · rcases List.mem_cons.mp hp with h | h
      · exact Or.inl (h ▸ List.mem_cons_self _ _)
      · rcases ih p h with h' | ⟨ids₀, h₀, hp'⟩
        · exact Or.inl (List.mem_cons_of_mem _ h')
        · exact Or.inr ⟨ids₀, h₀.imp id (List.mem_cons_of_mem _), hp'⟩

theorem btreePush_keys_sorted {m : TsIndex} (ts : Timestamp) (eid : EventId)
    (h : m.Pairwise (fun p q => p.1 < q.1)) :
    (btreePush m ts eid).Pairwise (fun p q => p.1 < q.1) := by
  induction m with
  | nil => simp [btreePush]
  | cons hd tl ih =>
    obtain ⟨t, ids⟩ := hd
    rw [List.pairwise_cons] at h
    obtain ⟨hgt, htl⟩ := h
    simp only [btreePush]
    split_ifs with h₁ h₂
    · refine List.pairwise_cons.mpr ⟨?_, List.pairwise_cons.mpr ⟨hgt, htl⟩⟩
      intro q hq
      rcases List.mem_cons.mp hq with h | h
      · subst h; exact h₁
      · exact lt_trans h₁ (hgt q h)
    · exact List.pairwise_cons.mpr ⟨hgt, htl⟩
    · refine List.pairwise_cons.mpr ⟨?_, ih htl⟩
      intro q hq
      rcases mem_btreePush q hq with h | ⟨ids₀, _, hq'⟩
      · exact hgt q h
      · subst hq'
        exact lt_of_le_of_ne (Nat.le_of_not_lt h₁) (Ne.symm h₂)

theorem count_tsIndexIds_btreePush (m : TsIndex) (ts : Timestamp) (eid i : EventId) :
    (tsIndexIds (btreePush m ts eid)).count i =
      (tsIndexIds m).count i + if i = eid then 1 else 0 := by
  have hsingle : List.count i [eid] = if i = eid then 1 else 0 := by
    by_cases h : i = eid
    · subst h; simp
    · simp [h, List.count_eq_zero]
  induction m with
  | nil =>
    simpa [btreePush, tsIndexIds] using hsingle
  | cons hd tl ih =>
    obtain ⟨t, ids⟩ := hd
    by_cases h₁ : ts < t
    · simp only [btreePush, if_pos h₁, tsIndexIds, List.flatMap_cons, List.count_append,
        hsingle]
      omega
    · by_cases h₂ : ts = t
      · simp only [btreePush, if_neg h₁, if_pos h₂, tsIndexIds, List.flatMap_cons,
          List.count_append, hsingle]
        omega
      · simp only [btreePush, if_neg h₁, if_neg h₂, tsIndexIds, List.flatMap_cons,
          List.count_append] at ih ⊢
        omega

theorem btreePush_of_keys_gt {l : TsIndex} {ts : Timestamp} (eid : EventId)
    (h : ∀ p ∈ l, ts < p.1) : btreePush l ts eid = (ts, [eid]) :: l := by
  cases l with
  | nil => rfl
  | cons hd tl =>
    obtain ⟨t, ids⟩ := hd
    have : ts < t := h (t, ids) (List.mem_cons_self _ _)
    simp [btreePush, this]

/-! ### `typeIdxPush` lemmas -/

theorem assocGet_typeIdxPush (m : TypeIndex) (t t₂ : String) (ts : Timestamp) (eid : EventId) :
    assocGet (typeIdxPush m t ts eid) t₂ =
      if t₂ = t then some (btreePush ((assocGet m t).getD []) ts eid)
      else assocGet m t₂ := by
  induction m with
  | nil =>
    by_cases h : t₂ = t
    · subst h; simp [typeIdxPush, assocGet]
    · simp [typeIdxPush, assocGet, h, Ne.symm h]
  | cons hd tl ih =>
    obtain ⟨t₁, b⟩ := hd
    by_cases h₁ : t₁ = t
    · subst h₁
      by_cases h₂ : t₂ = t₁
      · subst h₂; simp [typeIdxPush, assocGet]
      · simp [typeIdxPush, assocGet, h₂, Ne.symm h₂]
    · by_cases h₂ : t₂ = t₁
      · subst h₂
        simp [typeIdxPush, assocGet, h₁, Ne.symm h₁]
      · simp [typeIdxPush, assocGet, h₁, h₂, Ne.symm h₂, ih]

theorem mem_typeIdxPush {m : TypeIndex} {t : String} {ts : Timestamp} {eid : EventId} :
    ∀ q ∈ typeIdxPush m t ts eid,
      q ∈ m ∨ ∃ b₀, (b₀ = [] ∨ (t, b₀) ∈ m) ∧ q = (t, btreePush b₀ ts eid) := by
  induction m with
  | nil =>
    intro q hq
    simp only [typeIdxPush, List.mem_singleton] at hq
    exact Or.inr ⟨[], Or.inl rfl, hq⟩
  | cons hd tl ih =>
    obtain ⟨t₁, b⟩ := hd
    intro q hq
    simp only [typeIdxPush] at hq
    split_ifs at hq with h₁
    · subst h₁
      rcases List.mem_cons.mp hq with h | h
      · exact Or.inr ⟨b, Or.inr (List.mem_cons_self _ _), h⟩
      · exact Or.inl (List.mem_cons_of_mem _ h)
    · rcases List.mem_cons.mp hq with h | h
      · exact Or.inl (h ▸ List.mem_cons_self _ _)
      · rcases ih q h with h' | ⟨b₀, h₀, hq'⟩
        · exact Or.inl (List.mem_cons_of_mem _ h')
        · exact Or.inr ⟨b₀, h₀.imp id (List.mem_cons_of_mem _), hq'⟩

theorem count_typeIndexIds_typeIdxPush (m : TypeIndex) (t : String) (ts : Timestamp)
    (eid i : EventId) :
    (typeIndexIds (typeIdxPush m t ts eid)).count i =
      (typeIndexIds m).count i + if i = eid then 1 else 0 := by
  induction m with
  | nil =>
    have h := count_tsIndexIds_btreePush [] ts eid i
    simp only [tsIndexIds, List.flatMap_nil, List.count_nil, Nat.zero_add] at h
    simpa [typeIdxPush, typeIndexIds, tsIndexIds] using h
  | cons hd tl ih =>
    obtain ⟨t₁, b⟩ := hd
    by_cases h₁ : t₁ = t
    · simp only [typeIdxPush, if_pos h₁, typeIndexIds, List.flatMap_cons, List.count_append,
        count_tsIndexIds_btreePush]
      omega
    · simp only [typeIdxPush, if_neg h₁, typeIndexIds, List.flatMap_cons, List.count_append]
        at ih ⊢
      omega

/-! ### `btreeRange` lemmas -/

theorem btreeRange_cons (t : Timestamp) (ids : List EventId) (m : TsIndex)
    (start stop : Option Timestamp) :
    btreeRange ((t, ids) :: m) start stop =
      if inRange start stop t then (t, ids) :: btreeRange m start stop
      else btreeRange m start stop := by
  simp [btreeRange, List.filter_cons]

theorem btreeRange_sorted {m : TsIndex} (start stop : Option Timestamp)
    (h : m.Pairwise (fun p q => p.1 < q.1)) :
    (btreeRange m start stop).Pairwise (fun p q => p.1 < q.1) :=
  List.Pairwise.sublist (List.filter_sublist _) h

theorem btreeRange_btreePush {m : TsIndex} (ts : Timestamp) (eid : EventId)
    (start stop : Option Timestamp)
    (hsorted : m.Pairwise (fun p q => p.1 < q.1)) :
    btreeRange (btreePush m ts eid) start stop =
      if inRange start stop ts then btreePush (btreeRange m start stop) ts eid
      else btreeRange m start stop := by
  induction m with
  | nil =>
    by_cases hr : inRange start stop ts <;>
      simp [btreeRange, btreePush, List.filter_cons, hr]
  | cons hd tl ih =>
    obtain ⟨t, ids⟩ := hd
    rw [List.pairwise_cons] at hsorted
    obtain ⟨hgt, htl⟩ := hsorted
    have ihtl := ih htl
    by_cases h₁ : ts < t
    · have hpush : btreePush ((t, ids) :: tl) ts eid = (ts, [eid]) :: (t, ids) :: tl := by
        simp [btreePush, h₁]
      have hkeys : ∀ p ∈ btreeRange ((t, ids) :: tl) start stop, ts < p.1 := by
        intro p hp
        rcases List.mem_cons.mp (List.mem_of_mem_filter hp) with h | h
        · subst h; exact h₁
        · exact lt_trans h₁ (hgt p h)
      by_cases hr : inRange start stop ts
      · rw [hpush, btreeRange_cons, if_pos hr, if_pos hr, btreePush_of_keys_gt eid hkeys]
      · rw [hpush, btreeRange_cons, if_neg hr, if_neg hr]
    · by_cases h₂ : ts = t
      · subst h₂
        have hpush : btreePush ((ts, ids) :: tl) ts eid = (ts, ids ++ [eid]) :: tl := by
          simp [btreePush]
        by_cases hr : inRange start stop ts
        · rw [hpush, btreeRange_cons, if_pos hr, if_pos hr, btreeRange_cons, if_pos hr]
          simp [btreePush]
        · rw [hpush, btreeRange_cons, if_neg hr, if_neg hr, btreeRange_cons, if_neg hr]
      · have hpush₂ : ∀ l : TsIndex,
            btreePush ((t, ids) :: l) ts eid = (t, ids) :: btreePush l ts eid := by
          intro l; simp [btreePush, h₁, h₂]
        by_cases ht : inRange start stop t
        · by_cases hr : inRange start stop ts
          · simp only [hpush₂, btreeRange_cons, ihtl, if_pos ht, if_pos hr]
          · simp only [hpush₂, btreeRange_cons, ihtl, if_pos ht, if_neg hr]
        · by_cases hr : inRange start stop ts
          · simp only [hpush₂, btreeRange_cons, ihtl, if_neg ht, if_pos hr]
          · simp only [hpush₂, btreeRange_cons, ihtl, if_neg ht, if_neg hr]

/-! ### `resolveBuckets` lemmas -/

theorem resolveBuckets_cons (eb : List (EventId × Event)) (t : Timestamp)
    (ids : List EventId) (m : TsIndex) :
    resolveBuckets eb ((t, ids) :: m) =
      ids.filterMap (fun eid => assocGet eb eid) ++ resolveBuckets eb m := by
  simp [resolveBuckets]

theorem mem_resolveBuckets {eb : List (EventId × Event)} {m : TsIndex} {x : Event} :
    x ∈ resolveBuckets eb m ↔ ∃ p ∈ m, ∃ i ∈ p.2, assocGet eb i = some x := by
  simp [resolveBuckets, List.mem_flatMap, List.mem_filterMap]

theorem resolveBuckets_congr {eb eb' : List (EventId × Event)} {m : TsIndex}
    (h : ∀ p ∈ m, ∀ i ∈ p.2, assocGet eb' i = assocGet eb i) :
    resolveBuckets eb' m = resolveBuckets eb m := by
  induction m with
  | nil => rfl
  | cons hd tl ih =>
    obtain ⟨t, ids⟩ := hd
    rw [resolveBuckets_cons, resolveBuckets_cons,
      ih fun p hp => h p (List.mem_cons_of_mem _ hp)]
    congr 1
    induction ids with
    | nil => rfl
    | cons i is ihh =>
      simp only [List.filterMap_cons]
      rw [h (t, i :: is) (List.mem_cons_self _ _) i (List.mem_cons_self _ _)]
      cases assocGet eb i with
      | none =>
        exact ihh fun p hp j hj => by
          rcases List.mem_cons.mp hp with hh | hh
          · subst hh
            exact h (t, i :: is) (List.mem_cons_self _ _) j (List.mem_cons_of_mem _ hj)
          · exact h p (List.mem_cons_of_mem _ hh) j hj
      | some v =>
        rw [ihh fun p hp j hj => by
          rcases List.mem_cons.mp hp with hh | hh
          · subst hh
            exact h (t, i :: is) (List.mem_cons_self _ _) j (List.mem_cons_of_mem _ hj)
          · exact h p (List.mem_cons_of_mem _ hh) j hj]

/-! ### `insertByTs` and `sortByTs` lemmas -/

theorem insertByTs_perm (e : Event) (l : List Event) :
    List.Perm (insertByTs e l) (e :: l) := by
  induction l with
  | nil => exact List.Perm.refl _
  | cons x xs ih =>
    by_cases h : x.timestamp ≤ e.timestamp
    · simp only [insertByTs, if_pos h]
      exact (ih.cons x).trans (List.Perm.swap e x xs)
    · simp only [insertByTs, if_neg h]
      exact List.Perm.refl _

theorem insertByTs_of_forall_gt {e : Event} {l : List Event}
    (h : ∀ x ∈ l, e.timestamp < x.timestamp) : insertByTs e l = e :: l := by
  cases l with
  | nil => rfl
  | cons x xs =>
    have hx := h x (List.mem_cons_self _ _)
    simp only [insertByTs, if_neg (not_le.mpr hx)]

theorem insertByTs_append {e : Event} {A B : List Event}
    (h : ∀ x ∈ A, x.timestamp ≤ e.timestamp) :
    insertByTs e (A ++ B) = A ++ insertByTs e B := by
  induction A with
  | nil => simp
  | cons x xs ih =>
    have hx := h x (List.mem_cons_self _ _)
    simp only [List.cons_append, insertByTs, if_pos hx, List.append_eq]
    rw [ih fun y hy => h y (List.mem_cons_of_mem _ hy)]

theorem insertByTs_sorted {e : Event} {l : List Event}
    (h : l.Pairwise (fun a b => a.timestamp ≤ b.timestamp)) :
    (insertByTs e l).Pairwise (fun a b => a.timestamp ≤ b.timestamp) := by
  induction l with
  | nil => simp [insertByTs]
  | cons x xs ih =>
    rw [List.pairwise_cons] at h
    obtain ⟨hx, hxs⟩ := h
    by_cases hle : x.timestamp ≤ e.timestamp
    · simp only [insertByTs, if_pos hle]
      refine List.pairwise_cons.mpr ⟨?_, ih hxs⟩
      intro y hy
      rcases List.mem_cons.mp ((insertByTs_perm e xs).mem_iff.mp hy) with hh | hh
      · subst hh; exact hle
      · exact hx y hh
    · simp only [insertByTs, if_neg hle]
      refine List.pairwise_cons.mpr ⟨?_, List.pairwise_cons.mpr ⟨hx, hxs⟩⟩
      intro y hy
      rcases List.mem_cons.mp hy with hh | hh
      · subst hh; exact Nat.le_of_lt (not_le.mp hle)
      · exact le_trans (Nat.le_of_lt (not_le.mp hle)) (hx y hh)

theorem sortByTs_append_singleton (l : List Event) (e : Event) :
    sortByTs (l ++ [e]) = insertByTs e (sortByTs l) := by
  simp [sortByTs, List.foldl_append]

theorem foldl_insertByTs_perm (l : List Event) :
    ∀ acc : List Event,
      List.Perm (l.foldl (fun acc e => insertByTs e acc) acc) (acc ++ l) := by
  induction l with
  | nil => intro acc; simp
  | cons x xs ih =>
    intro acc
    refine ((ih (insertByTs x acc)).trans ?_)
    refine (((insertByTs_perm x acc).append_right xs).trans ?_)
    simpa using List.perm_middle.symm

theorem sortByTs_perm (l : List Event) : List.Perm (sortByTs l) l := by
  simpa using foldl_insertByTs_perm l []

theorem foldl_insertByTs_sorted (l : List Event) :
    ∀ acc : List Event, acc.Pairwise (fun a b => a.timestamp ≤ b.timestamp) →
      (l.foldl (fun acc e => insertByTs e acc) acc).Pairwise
        (fun a b => a.timestamp ≤ b.timestamp) := by
  induction l with
  | nil => intro acc hacc; simpa using hacc
  | cons x xs ih =>
    intro acc hacc
    exact ih (insertByTs x acc) (insertByTs_sorted hacc)

theorem sortByTs_sorted (l : List Event) :
    (sortByTs l).Pairwise (fun a b => a.timestamp ≤ b.timestamp) :=
  foldl_insertByTs_sorted l [] (List.Pairwise.nil)

theorem filter_ts_of_forall_gt {ts : Timestamp} {l : List Event}
    (h : ∀ x ∈ l, ts < x.timestamp) :
    l.filter (fun x => decide (x.timestamp = ts)) = [] := by
  apply List.filter_eq_nil_iff.mpr
  intro x hx
  simp only [decide_eq_true_eq]
  exact ne_of_gt (h x hx)

theorem filter_ts_insertByTs (ts : Timestamp) {e : Event} {l : List Event}
    (hs : l.Pairwise (fun a b => a.timestamp ≤ b.timestamp)) :
    (insertByTs e l).filter (fun x => decide (x.timestamp = ts)) =
      l.filter (fun x => decide (x.timestamp = ts)) ++
        (if e.timestamp = ts then [e] else []) := by
  induction l with
  | nil =>
    by_cases h : e.timestamp = ts <;> simp [insertByTs, h]
  | cons x xs ih =>
    rw [List.pairwise_cons] at hs
    obtain ⟨hx, hxs⟩ := hs
    by_cases hle : x.timestamp ≤ e.timestamp
    · simp only [insertByTs, if_pos hle]
      by_cases hxts : x.timestamp = ts
      · simp [List.filter_cons, hxts, ih hxs]
      · simp [List.filter_cons, hxts, ih hxs]
    · have hgt : ∀ y ∈ x :: xs, e.timestamp < y.timestamp := by
        intro y hy
        rcases List.mem_cons.mp hy with hh | hh
        · subst hh; exact not_le.mp hle
        · exact lt_of_lt_of_le (not_le.mp hle) (hx y hh)
      simp only [insertByTs, if_neg hle]
      by_cases hets : e.timestamp = ts
      · have hnil : (x :: xs).filter (fun y => decide (y.timestamp = ts)) = [] :=
          filter_ts_of_forall_gt (by intro y hy; exact hets ▸ hgt y hy)
        simp [List.filter_cons, hets, hnil]
      · simp [List.filter_cons, hets]

theorem foldl_insertByTs_filter_ts (ts : Timestamp) (l : List Event) :
    ∀ acc : List Event, acc.Pairwise (fun a b => a.timestamp ≤ b.timestamp) →
      (l.foldl (fun acc e => insertByTs e acc) acc).filter
          (fun x => decide (x.timestamp = ts)) =
        acc.filter (fun x => decide (x.timestamp = ts)) ++
          l.filter (fun x => decide (x.timestamp = ts)) := by
  induction l with
  | nil => intro acc hacc; simp
  | cons x xs ih =>
    intro acc hacc
    rw [List.foldl_cons, ih (insertByTs x acc) (insertByTs_sorted hacc),
      filter_ts_insertByTs ts hacc, List.filter_cons]
    by_cases h : x.timestamp = ts
    · simp [h, List.append_assoc]
    · simp [h]

/-- Stability of `sortByTs`: the events carrying any fixed timestamp appear
in the sorted list exactly in their input (insertion) order. -/
theorem sortByTs_filter_ts (ts : Timestamp) (l : List Event) :
    (sortByTs l).filter (fun x => decide (x.timestamp = ts)) =
      l.filter (fun x => decide (x.timestamp = ts)) := by
  simpa using foldl_insertByTs_filter_ts ts l [] List.Pairwise.nil

/-! ### Unfolding lemmas for the engine operations -/

theorem capResult_eq (l : List Event) :
    capResult l =
      if MAX_QUERIED_EVENTS < l.length then
        Except.error (RetrieveError.ResultTooLarge MAX_QUERIED_EVENTS)
      else Except.ok l := by
  have hlen : (l.take (MAX_QUERIED_EVENTS + 1)).length =
      min (MAX_QUERIED_EVENTS + 1) l.length := List.length_take _ _
  by_cases h : MAX_QUERIED_EVENTS < l.length
  · have hgt : (l.take (MAX_QUERIED_EVENTS + 1)).length > MAX_QUERIED_EVENTS := by omega
    simp only [capResult, if_pos hgt, if_pos h]
  · have htake : l.take (MAX_QUERIED_EVENTS + 1) = l := List.take_of_length_le (by omega)
    have hng : ¬ (l.take (MAX_QUERIED_EVENTS + 1)).length > MAX_QUERIED_EVENTS := by omega
    simp only [capResult, if_neg hng, if_neg h, htake]

theorem get_events_fst (s : InMemoryStorage) (filt : Option String)
    (start stop : Option Timestamp) :
    (get_events s filt start stop).1 = capResult (matchingEvents s filt start stop) := by
  cases filt with
  | none => rfl
  | some t =>
    simp only [get_events, matchingEvents]
    cases assocGet s.events.events_by_type_by_timestamp t with
    | none => rfl
    | some b => rfl

theorem get_events_snd (s : InMemoryStorage) (filt : Option String)
    (start stop : Option Timestamp) :
    (get_events s filt start stop).2 = s := by
  cases filt with
  | none => rfl
  | some t =>
    simp only [get_events]
    cases assocGet s.events.events_by_type_by_timestamp t <;> rfl

theorem store_rejected {s : InMemoryStorage} {e : Event}
    (h : e.event_type = "winter wrap up") :
    store s e = (Except.error (StoreError.InvalidEventType e.event_type), s) := by
  simp [store, h]

theorem store_accepted_fst {s : InMemoryStorage} {e : Event}
    (h : e.event_type ≠ "winter wrap up") :
    (store s e).1 = Except.ok () := by
  simp [store, h]

theorem store_accepted_snd {s : InMemoryStorage} {e : Event}
    (h : e.event_type ≠ "winter wrap up") :
    (store s e).2 =
      { next_event_id := s.next_event_id + 1
        events :=
          { event_by_id := assocInsert s.events.event_by_id s.next_event_id e
            events_by_timestamp :=
              btreePush s.events.events_by_timestamp e.timestamp s.next_event_id
            events_by_type_by_timestamp :=
              typeIdxPush s.events.events_by_type_by_timestamp e.event_type
                e.timestamp s.next_event_id } } := by
  simp [store, h]

theorem runStores_append (l : List Event) (e : Event) :
    runStores (l ++ [e]) = (store (runStores l) e).2 := by
  simp [runStores, List.foldl_append]

/-! ### The storage invariant -/

/-- The invariant maintained by `store` over the three indexes: bucket keys
strictly ascending, bucket contents strictly ascending and consistent with
`event_by_id`, all ids below the counter, and every stored id indexed exactly
once globally and exactly once in the per-type index. -/
structure Inv (s : InMemoryStorage) : Prop where
  ts_keys_sorted : s.events.events_by_timestamp.Pairwise (fun p q => p.1 < q.1)
  ts_ids_lt : ∀ p ∈ s.events.events_by_timestamp, ∀ i ∈ p.2, i < s.next_event_id
  ts_resolve : ∀ p ∈ s.events.events_by_timestamp, ∀ i ∈ p.2,
    ∃ e, assocGet s.events.event_by_id i = some e ∧ e.timestamp = p.1
  ts_ids_sorted : ∀ p ∈ s.events.events_by_timestamp, p.2.Pairwise (fun a b => a < b)
  ty_keys_sorted : ∀ q ∈ s.events.events_by_type_by_timestamp,
    q.2.Pairwise (fun p r => p.1 < r.1)
  ty_ids_lt : ∀ q ∈ s.events.events_by_type_by_timestamp, ∀ p ∈ q.2, ∀ i ∈ p.2,
    i < s.next_event_id
  ty_resolve : ∀ q ∈ s.events.events_by_type_by_timestamp, ∀ p ∈ q.2, ∀ i ∈ p.2,
    ∃ e, assocGet s.events.event_by_id i = some e ∧ e.timestamp = p.1 ∧
      e.event_type = q.1
  ty_ids_sorted : ∀ q ∈ s.events.events_by_type_by_timestamp, ∀ p ∈ q.2,
    p.2.Pairwise (fun a b => a < b)
  eb_keys_lt : ∀ kv ∈ s.events.event_by_id, kv.1 < s.next_event_id
  eb_count_ts : ∀ kv ∈ s.events.event_by_id,
    tsIndexCount s.events.events_by_timestamp kv.1 = 1
  eb_count_ty : ∀ kv ∈ s.events.event_by_id,
    typeIndexCount s.events.events_by_type_by_timestamp kv.1 = 1

theorem Inv_initialStorage : Inv initialStorage := by
  constructor <;> simp [initialStorage]

theorem assocGet_insert_of_ne {eb : List (EventId × Event)} {n i : EventId} (e : Event)
    (h : i ≠ n) :
    assocGet (assocInsert eb n e) i = assocGet eb i := by
  rw [assocGet_assocInsert, if_neg h]

theorem assocGet_insert_self (eb : List (EventId × Event)) (n : EventId) (e : Event) :
    assocGet (assocInsert eb n e) n = some e := by
  rw [assocGet_assocInsert, if_pos rfl]

theorem store_preserves_Inv {s : InMemoryStorage} (e : Event) (hInv : Inv s) :
    Inv (store s e).2 := by
  by_cases hrej : e.event_type = "winter wrap up"
  · rw [store_rejected hrej]
    exact hInv
  · rw [store_accepted_snd hrej]
    obtain ⟨h1, h2, h3, h4, h5, h6, h7, h8, h9, h10, h11⟩ := hInv
    set n := s.next_event_id with hn
    set eb := s.events.event_by_id with heb
    set m := s.events.events_by_timestamp with hm
    set tm := s.events.events_by_type_by_timestamp with htm
    have hfresh : ∀ kv ∈ eb, kv.1 ≠ n := fun kv hkv => ne_of_lt (h9 kv hkv)
    have hebApp : assocInsert eb n e = eb ++ [(n, e)] := assocInsert_of_fresh e hfresh
    have hres_old : ∀ i : EventId, i < n →
        assocGet (assocInsert eb n e) i = assocGet eb i :=
      fun i hi => assocGet_insert_of_ne e (ne_of_lt hi)
    refine ⟨?_, ?_, ?_, ?_, ?_, ?_, ?_, ?_, ?_, ?_, ?_⟩
    · exact btreePush_keys_sorted _ _ h1
    · intro p hp i hi
      rcases mem_btreePush p hp with hpm | ⟨ids₀, h₀, hpe⟩
      · exact lt_trans (h2 p hpm i hi) (Nat.lt_succ_self n)
      · subst hpe
        rcases List.mem_append.mp hi with hi₁ | hi₁
        · rcases h₀ with h₀ | h₀
          · subst h₀; exact absurd hi₁ (List.not_mem_nil i)
          · exact lt_trans (h2 _ h₀ i hi₁) (Nat.lt_succ_self n)
        · rw [List.mem_singleton] at hi₁
          subst hi₁
          exact Nat.lt_succ_self n
    · intro p hp i hi
      rcases mem_btreePush p hp with hpm | ⟨ids₀, h₀, hpe⟩
      · obtain ⟨ev, hev, hts⟩ := h3 p hpm i hi
        exact ⟨ev, by rw [hres_old i (h2 p hpm i hi)]; exact hev, hts⟩
      · subst hpe
        rcases List.mem_append.mp hi with hi₁ | hi₁
        · rcases h₀ with h₀ | h₀
          · subst h₀; exact absurd hi₁ (List.not_mem_nil i)
          · obtain ⟨ev, hev, hts⟩ := h3 _ h₀ i hi₁
            exact ⟨ev, by rw [hres_old i (h2 _ h₀ i hi₁)]; exact hev, hts⟩
        · rw [List.mem_singleton] at hi₁
          subst hi₁
          exact ⟨e, assocGet_insert_self eb n e, rfl⟩
    · intro p hp
      rcases mem_btreePush p hp with hpm | ⟨ids₀, h₀, hpe⟩
      · exact h4 p hpm
      · subst hpe
        show (ids₀ ++ [n]).Pairwise (fun a b => a < b)
        apply List.pairwise_append.mpr
        refine ⟨?_, by simp, ?_⟩
        · rcases h₀ with h₀ | h₀
          · subst h₀; exact List.Pairwise.nil
          · exact h4 _ h₀
        · intro a ha b hb
          rw [List.mem_singleton] at hb
          subst hb
          rcases h₀ with h₀ | h₀
          · subst h₀; exact absurd ha (List.not_mem_nil a)
          · exact h2 _ h₀ a ha
    · intro q hq
      rcases mem_typeIdxPush q hq with hqm | ⟨b₀, h₀, hqe⟩
      · exact h5 q hqm
      · subst hqe
        show (btreePush b₀ e.timestamp n).Pairwise (fun p r => p.1 < r.1)
        apply btreePush_keys_sorted
        rcases h₀ with h₀ | h₀
        · subst h₀; exact List.Pairwise.nil
        · exact h5 _ h₀
    · intro q hq p hp i hi
      rcases mem_typeIdxPush q hq with hqm | ⟨b₀, h₀, hqe⟩
      · exact lt_trans (h6 q hqm p hp i hi) (Nat.lt_succ_self n)
      · subst hqe
        rcases mem_btreePush p hp with hpm | ⟨ids₀, h₁', hpe⟩
        · rcases h₀ with h₀ | h₀
          · subst h₀; exact absurd hpm (List.not_mem_nil p)
          · exact lt_trans (h6 _ h₀ p hpm i hi) (Nat.lt_succ_self n)
        · subst hpe
          rcases List.mem_append.mp hi with hi₁ | hi₁
          · rcases h₁' with h₁' | h₁'
            · subst h₁'; exact absurd hi₁ (List.not_mem_nil i)
            · rcases h₀ with h₀ | h₀
              · subst h₀; exact absurd h₁' (List.not_mem_nil _)
              · exact lt_trans (h6 _ h₀ _ h₁' i hi₁) (Nat.lt_succ_self n)
          · rw [List.mem_singleton] at hi₁
            subst hi₁
            exact Nat.lt_succ_self n
    · intro q hq p hp i hi
      rcases mem_typeIdxPush q hq with hqm | ⟨b₀, h₀, hqe⟩
      · obtain ⟨ev, hev, hts, hty⟩ := h7 q hqm p hp i hi
        exact ⟨ev, by rw [hres_old i (h6 q hqm p hp i hi)]; exact hev, hts, hty⟩
      · subst hqe
        rcases mem_btreePush p hp with hpm | ⟨ids₀, h₁', hpe⟩
        · rcases h₀ with h₀ | h₀
          · subst h₀; exact absurd hpm (List.not_mem_nil p)
          · obtain ⟨ev, hev, hts, hty⟩ := h7 _ h₀ p hpm i hi
            exact ⟨ev, by rw [hres_old i (h6 _ h₀ p hpm i hi)]; exact hev, hts, hty⟩
        · subst hpe
          rcases List.mem_append.mp hi with hi₁ | hi₁
          · rcases h₁' with h₁' | h₁'
            · subst h₁'; exact absurd hi₁ (List.not_mem_nil i)
            · rcases h₀ with h₀ | h₀
              · subst h₀; exact absurd h₁' (List.not_mem_nil _)
              · obtain ⟨ev, hev, hts, hty⟩ := h7 _ h₀ _ h₁' i hi₁
                exact ⟨ev, by rw [hres_old i (h6 _ h₀ _ h₁' i hi₁)]; exact hev, hts, hty⟩
          · rw [List.mem_singleton] at hi₁
            subst hi₁
            exact ⟨e, assocGet_insert_self eb n e, rfl, rfl⟩
    · intro q hq p hp
      rcases mem_typeIdxPush q hq with hqm | ⟨b₀, h₀, hqe⟩
      · exact h8 q hqm p hp
      · subst hqe
        rcases mem_btreePush p hp with hpm | ⟨ids₀, h₁', hpe⟩
        · rcases h₀ with h₀ | h₀
          · subst h₀; exact absurd hpm (List.not_mem_nil p)
          · exact h8 _ h₀ p hpm
        · subst hpe
          show (ids₀ ++ [n]).Pairwise (fun a b => a < b)
          apply List.pairwise_append.mpr
          refine ⟨?_, by simp, ?_⟩
          · rcases h₁' with h₁' | h₁'
            · subst h₁'; exact List.Pairwise.nil
            · rcases h₀ with h₀ | h₀
              · subst h₀; exact absurd h₁' (List.not_mem_nil _)
              · exact h8 _ h₀ _ h₁'
          · intro a ha b hb
            rw [List.mem_singleton] at hb
            subst hb
            rcases h₁' with h₁' | h₁'
            · subst h₁'; exact absurd ha (List.not_mem_nil a)
            · rcases h₀ with h₀ | h₀
              · subst h₀; exact absurd h₁' (List.not_mem_nil _)
              · exact h6 _ h₀ _ h₁' a ha
    · intro kv hkv
      have hkv₁ : kv ∈ eb ++ [(n, e)] := by rw [← hebApp]; exact hkv
      rcases List.mem_append.mp hkv₁ with hkv₂ | hkv₂
      · exact lt_trans (h9 kv hkv₂) (Nat.lt_succ_self n)
      · rw [List.mem_singleton] at hkv₂
        subst hkv₂
        exact Nat.lt_succ_self n
    · intro kv hkv
      have hkv₁ : kv ∈ eb ++ [(n, e)] := by rw [← hebApp]; exact hkv
      rcases List.mem_append.mp hkv₁ with hkv₂ | hkv₂
      · have hne : kv.1 ≠ n := ne_of_lt (h9 kv hkv₂)
        have h10k := h10 kv hkv₂
        show tsIndexCount (btreePush m e.timestamp n) kv.1 = 1
        simp only [tsIndexCount] at h10k ⊢
        rw [count_tsIndexIds_btreePush, if_neg hne]
        omega
      · rw [List.mem_singleton] at hkv₂
        subst hkv₂
        show tsIndexCount (btreePush m e.timestamp n) n = 1
        have hzero : (tsIndexIds m).count n = 0 := by
          apply List.count_eq_zero.mpr
          intro hmem
          simp only [tsIndexIds, List.mem_flatMap] at hmem
          obtain ⟨p, hp, hip⟩ := hmem
          exact absurd (h2 p hp n hip) (lt_irrefl n)
        simp only [tsIndexCount]
        rw [count_tsIndexIds_btreePush, if_pos rfl, hzero]
    · intro kv hkv
      have hkv₁ : kv ∈ eb ++ [(n, e)] := by rw [← hebApp]; exact hkv
      rcases List.mem_append.mp hkv₁ with hkv₂ | hkv₂
      · have hne : kv.1 ≠ n := ne_of_lt (h9 kv hkv₂)
        have h11k := h11 kv hkv₂
        show typeIndexCount (typeIdxPush tm e.event_type e.timestamp n) kv.1 = 1
        simp only [typeIndexCount] at h11k ⊢
        rw [count_typeIndexIds_typeIdxPush, if_neg hne]
        omega
      · rw [List.mem_singleton] at hkv₂
        subst hkv₂
        show typeIndexCount (typeIdxPush tm e.event_type e.timestamp n) n = 1
        have hzero : (typeIndexIds tm).count n = 0 := by
          apply List.count_eq_zero.mpr
          intro hmem
          simp only [typeIndexIds, tsIndexIds, List.mem_flatMap] at hmem
          obtain ⟨q, hq, p, hp, hip⟩ := hmem
          exact absurd (h6 q hq p hp n hip) (lt_irrefl n)
        simp only [typeIndexCount]
        rw [count_typeIndexIds_typeIdxPush, if_pos rfl, hzero]

/-- Every reachable state of the engine satisfies the storage invariant. -/
theorem Inv_runStores (hist : List Event) : Inv (runStores hist) := by
  induction hist using List.reverseRecOn with
  | nil => exact Inv_initialStorage
  | append_singleton l e ih =>
    rw [runStores_append]
    exact store_preserves_Inv e ih

theorem store_rejected_snd {s : InMemoryStorage} {e : Event}
    (h : e.event_type = "winter wrap up") : (store s e).2 = s := by
  simp [store, h]

/-! ### How one accepted `store` changes the uncapped scan -/

/-- Pushing a fresh id onto a sorted, timestamp-consistent bucket list inserts
the corresponding event at its timestamp position of the resolved scan. -/
theorem resolveBuckets_btreePush {eb : List (EventId × Event)} {r : TsIndex}
    {ts : Timestamp} {eid : EventId} {e : Event}
    (hsorted : r.Pairwise (fun p q => p.1 < q.1))
    (hts : ∀ p ∈ r, ∀ i ∈ p.2, ∀ ev, assocGet eb i = some ev → ev.timestamp = p.1)
    (hres : assocGet eb eid = some e) (hets : e.timestamp = ts) :
    resolveBuckets eb (btreePush r ts eid) = insertByTs e (resolveBuckets eb r) := by
  induction r with
  | nil =>
    show resolveBuckets eb [(ts, [eid])] = insertByTs e []
    rw [resolveBuckets_cons]
    simp [resolveBuckets, insertByTs, List.filterMap_cons, hres]
  | cons hd tl ih =>
    obtain ⟨t, ids⟩ := hd
    rw [List.pairwise_cons] at hsorted
    obtain ⟨hgt, htl⟩ := hsorted
    have hts_hd : ∀ i ∈ ids, ∀ ev, assocGet eb i = some ev → ev.timestamp = t :=
      fun i hi ev hev => hts (t, ids) (List.mem_cons_self _ _) i hi ev hev
    have hts_tl : ∀ p ∈ tl, ∀ i ∈ p.2, ∀ ev, assocGet eb i = some ev → ev.timestamp = p.1 :=
      fun p hp => hts p (List.mem_cons_of_mem _ hp)
    have hmem_tl_gt : ∀ x ∈ resolveBuckets eb tl, t < x.timestamp := by
      intro x hx
      obtain ⟨p, hp, i, hi, hgetx⟩ := mem_resolveBuckets.mp hx
      rw [hts_tl p hp i hi x hgetx]
      exact hgt p hp
    have hmem_hd_eq : ∀ x ∈ ids.filterMap (fun i => assocGet eb i), x.timestamp = t := by
      intro x hx
      obtain ⟨i, hi, hgetx⟩ := List.mem_filterMap.mp hx
      exact hts_hd i hi x hgetx
    by_cases h₁ : ts < t
    · have hpush : btreePush ((t, ids) :: tl) ts eid = (ts, [eid]) :: (t, ids) :: tl := by
        simp [btreePush, h₁]
      rw [hpush, resolveBuckets_cons]
      have hgt_all : ∀ x ∈ resolveBuckets eb ((t, ids) :: tl), e.timestamp < x.timestamp := by
        intro x hx
        rw [resolveBuckets_cons] at hx
        rcases List.mem_append.mp hx with hx₁ | hx₁
        · rw [hmem_hd_eq x hx₁, hets]; exact h₁
        · rw [hets]; exact lt_trans h₁ (hmem_tl_gt x hx₁)
      rw [insertByTs_of_forall_gt hgt_all]
      simp [List.filterMap_cons, hres]
    · by_cases h₂ : ts = t
      · subst h₂
        have hpush : btreePush ((ts, ids) :: tl) ts eid = (ts, ids ++ [eid]) :: tl := by
          simp [btreePush]
        rw [hpush, resolveBuckets_cons, resolveBuckets_cons, List.filterMap_append]
        have hone : [eid].filterMap (fun i => assocGet eb i) = [e] := by
          simp [List.filterMap_cons, hres]
        rw [hone]
        rw [insertByTs_append (fun x hx => le_of_eq ((hmem_hd_eq x hx).trans hets.symm)),
          insertByTs_of_forall_gt (fun x hx => hets ▸ hmem_tl_gt x hx)]
        simp
      · have hlt : t < ts := lt_of_le_of_ne (Nat.le_of_not_lt h₁) (Ne.symm h₂)
        have hpush : btreePush ((t, ids) :: tl) ts eid = (t, ids) :: btreePush tl ts eid := by
          simp [btreePush, h₁, h₂]
        rw [hpush, resolveBuckets_cons, resolveBuckets_cons, ih htl hts_tl]
        rw [insertByTs_append
          (fun x hx => le_of_lt (lt_of_eq_of_lt (hmem_hd_eq x hx) (hets ▸ hlt)))]

theorem scan_after_push {eb : List (EventId × Event)} {r : TsIndex} {n : EventId}
    {e : Event}
    (hsorted : r.Pairwise (fun p q => p.1 < q.1))
    (hlt : ∀ p ∈ r, ∀ i ∈ p.2, i < n)
    (hres : ∀ p ∈ r, ∀ i ∈ p.2, ∃ ev, assocGet eb i = some ev ∧ ev.timestamp = p.1)
    (start stop : Option Timestamp) :
    resolveBuckets (assocInsert eb n e)
        (btreeRange (btreePush r e.timestamp n) start stop) =
      if inRange start stop e.timestamp then
        insertByTs e (resolveBuckets eb (btreeRange r start stop))
      else resolveBuckets eb (btreeRange r start stop) := by
  have hcongr : resolveBuckets (assocInsert eb n e) (btreeRange r start stop) =
      resolveBuckets eb (btreeRange r start stop) := by
    apply resolveBuckets_congr
    intro p hp i hi
    exact assocGet_insert_of_ne e (ne_of_lt (hlt p (List.mem_of_mem_filter hp) i hi))
  rw [btreeRange_btreePush _ _ _ _ hsorted]
  by_cases hr : inRange start stop e.timestamp
  · rw [if_pos hr, if_pos hr]
    have hts : ∀ p ∈ btreeRange r start stop, ∀ i ∈ p.2, ∀ ev,
        assocGet (assocInsert eb n e) i = some ev → ev.timestamp = p.1 := by
      intro p hp i hi ev hev
      have hp₁ := List.mem_of_mem_filter hp
      rw [assocGet_insert_of_ne e (ne_of_lt (hlt p hp₁ i hi))] at hev
      obtain ⟨ev₀, hev₀, hts₀⟩ := hres p hp₁ i hi
      rw [hev₀] at hev
      injection hev with hh
      subst hh
      exact hts₀
    rw [resolveBuckets_btreePush (btreeRange_sorted start stop hsorted) hts
        (assocGet_insert_self eb n e) rfl, hcongr]
  · rw [if_neg hr, if_neg hr, hcongr]

theorem matchingEvents_store {s : InMemoryStorage} {e : Event} (hInv : Inv s)
    (hacc : e.event_type ≠ "winter wrap up") (filt : Option String)
    (start stop : Option Timestamp) :
    matchingEvents (store s e).2 filt start stop =
      if matchesQuery filt start stop e then
        insertByTs e (matchingEvents s filt start stop)
      else matchingEvents s filt start stop := by
  obtain ⟨h1, h2, h3, h4, h5, h6, h7, h8, h9, h10, h11⟩ := hInv
  rw [store_accepted_snd hacc]
  cases filt with
  | none =>
    show resolveBuckets (assocInsert s.events.event_by_id s.next_event_id e)
        (btreeRange (btreePush s.events.events_by_timestamp e.timestamp s.next_event_id)
          start stop) = _
    rw [scan_after_push h1 h2 h3 start stop]
    simp only [matchesQuery, Bool.true_and, matchingEvents]
  | some t =>
    have hGetPush := assocGet_typeIdxPush s.events.events_by_type_by_timestamp
      e.event_type t e.timestamp s.next_event_id
    by_cases hty : t = e.event_type
    · subst hty
      rw [if_pos rfl] at hGetPush
      cases hchain : assocGet s.events.events_by_type_by_timestamp e.event_type with
      | none =>
        rw [hchain] at hGetPush
        simp only [Option.getD_none] at hGetPush
        simp only [matchingEvents, hGetPush]
        rw [scan_after_push List.Pairwise.nil
          (fun p hp => absurd hp (List.not_mem_nil p))
          (fun p hp => absurd hp (List.not_mem_nil p)) start stop]
        simp [matchesQuery, matchingEvents, hchain, btreeRange, resolveBuckets]
      | some chain =>
        rw [hchain] at hGetPush
        simp only [Option.getD_some] at hGetPush
        have hmem : (e.event_type, chain) ∈ s.events.events_by_type_by_timestamp :=
          assocGet_mem hchain
        have hres₃ : ∀ p ∈ chain, ∀ i ∈ p.2,
            ∃ ev, assocGet s.events.event_by_id i = some ev ∧ ev.timestamp = p.1 := by
          intro p hp i hi
          obtain ⟨ev, hev, hts, _⟩ := h7 _ hmem p hp i hi
          exact ⟨ev, hev, hts⟩
        simp only [matchingEvents, hGetPush]
        rw [scan_after_push (h5 _ hmem) (h6 _ hmem) hres₃ start stop]
        simp [matchesQuery, matchingEvents, hchain]
    · rw [if_neg hty] at hGetPush
      have hnety : e.event_type ≠ t := Ne.symm hty
      cases hchain : assocGet s.events.events_by_type_by_timestamp t with
      | none =>
        rw [hchain] at hGetPush
        simp only [matchingEvents, hGetPush]
        simp [matchesQuery, matchingEvents, hchain, hnety]
      | some chain =>
        rw [hchain] at hGetPush
        have hmem : (t, chain) ∈ s.events.events_by_type_by_timestamp :=
          assocGet_mem hchain
        have hcongr : resolveBuckets (assocInsert s.events.event_by_id s.next_event_id e)
            (btreeRange chain start stop) =
            resolveBuckets s.events.event_by_id (btreeRange chain start stop) := by
          apply resolveBuckets_congr
          intro p hp i hi
          exact assocGet_insert_of_ne e
            (ne_of_lt (h6 _ hmem p (List.mem_of_mem_filter hp) i hi))
        simp only [matchingEvents, hGetPush]
        rw [hcongr]
        simp [matchesQuery, matchingEvents, hchain, hnety]

/-! ### The main characterization of reachable-state queries -/

theorem specMatches_append (hist : List Event) (e : Event) (filt : Option String)
    (start stop : Option Timestamp) :
    specMatches (hist ++ [e]) filt start stop =
      if decide (e.event_type ≠ "winter wrap up") && matchesQuery filt start stop e then
        insertByTs e (specMatches hist filt start stop)
      else specMatches hist filt start stop := by
  simp only [specMatches, acceptedEvents, List.filter_append]
  by_cases hacc : e.event_type ≠ "winter wrap up"
  · by_cases hm : matchesQuery filt start stop e
    · simp [hacc, hm, sortByTs_append_singleton]
    · simp [hacc, hm]
  · simp [hacc]

/-- On every reachable state, the uncapped scan of `get_events` produces
exactly the accepted stored events matching the query, in timestamp-then-
insertion order. -/
theorem matchingEvents_runStores (hist : List Event) (filt : Option String)
    (start stop : Option Timestamp) :
    matchingEvents (runStores hist) filt start stop = specMatches hist filt start stop := by
  induction hist using List.reverseRecOn with
  | nil => cases filt <;> rfl
  | append_singleton l e ih =>
    rw [runStores_append, specMatches_append]
    by_cases hacc : e.event_type ≠ "winter wrap up"
    · rw [matchingEvents_store (Inv_runStores l) hacc]
      by_cases hm : matchesQuery filt start stop e
      · simp [hacc, hm, ih]
      · simp [hacc, hm, ih]
    · have heq : e.event_type = "winter wrap up" := not_not.mp hacc
      rw [store_rejected_snd heq]
      have hd : decide (e.event_type ≠ "winter wrap up") = false := by
        simp [heq]
      simp [hd, ih]

/-! ### The claims -/

/-- C1: code bug. The claim (and the spec's "Empty/inverted range" and
no-panic bullets) say an inverted range returns `Ok` with an empty result and
that `get_events` never panics on well-typed input, but the Rust code hands
the bounds straight to `BTreeMap::range` (line 115), which panics with
"range start is greater than range end in BTreeMap" whenever both bounds are
present with start > end and the scanned map is non-empty: on a store holding
one event, `get_events(None, Some 9, Some 3)` panics instead of returning
`Ok []`. Only on the empty store, where the range is never searched, does the
query return the empty result the claim describes. -/
theorem C1_inverted_range_code_bug :
    get_events_panics (runStores [⟨"login", 4, "x"⟩]) none (some 9) (some 3) = true ∧
    get_events_panics initialStorage none (some 9) (some 3) = false ∧
    (get_events initialStorage none (some 9) (some 3)).1 = Except.ok [] :=
  ⟨rfl, rfl, rfl⟩

/-- C2: with the configured maximum `MAX_QUERIED_EVENTS`, a query whose
matching set (accepted stored events passing the type filter and timestamp
bounds) exceeds the maximum returns `ResultTooLarge(maximum)` and no partial
result, while a matching set of exactly the maximum size is returned in full,
in order. -/
theorem C2_size_cap (hist : List Event) (filt : Option String)
    (start stop : Option Timestamp) :
    (MAX_QUERIED_EVENTS < (specMatches hist filt start stop).length →
      (get_events (runStores hist) filt start stop).1 =
        Except.error (RetrieveError.ResultTooLarge MAX_QUERIED_EVENTS)) ∧
    ((specMatches hist filt start stop).length = MAX_QUERIED_EVENTS →
      (get_events (runStores hist) filt start stop).1 =
        Except.ok (specMatches hist filt start stop)) := by
  rw [get_events_fst, matchingEvents_runStores, capResult_eq]
  constructor
  · intro h
    rw [if_pos h]
  · intro h
    rw [if_neg (by rw [h]; exact lt_irrefl _)]

theorem C2_size_cap_witness :
    (get_events (runStores [⟨"a", 1, "p1"⟩, ⟨"a", 1, "p2"⟩, ⟨"a", 2, "p3"⟩,
        ⟨"a", 2, "p4"⟩, ⟨"a", 3, "p5"⟩]) none none none).1 =
      Except.error (RetrieveError.ResultTooLarge MAX_QUERIED_EVENTS) ∧
    (get_events (runStores [⟨"a", 1, "p1"⟩, ⟨"a", 1, "p2"⟩, ⟨"a", 2, "p3"⟩,
        ⟨"a", 2, "p4"⟩]) none none none).1 =
      Except.ok (specMatches [⟨"a", 1, "p1"⟩, ⟨"a", 1, "p2"⟩, ⟨"a", 2, "p3"⟩,
        ⟨"a", 2, "p4"⟩] none none none) :=
  ⟨(C2_size_cap [⟨"a", 1, "p1"⟩, ⟨"a", 1, "p2"⟩, ⟨"a", 2, "p3"⟩, ⟨"a", 2, "p4"⟩,
      ⟨"a", 3, "p5"⟩] none none none).1 (by decide),
    (C2_size_cap [⟨"a", 1, "p1"⟩, ⟨"a", 1, "p2"⟩, ⟨"a", 2, "p3"⟩,
      ⟨"a", 2, "p4"⟩] none none none).2 (by decide)⟩

/-- C3 counterexample: the round-trip claim fails as stated. First, with four
events already stored, storing a fifth succeeds but the full query returns
`ResultTooLarge` instead of a sequence containing the event. Second, storing
the same event value twice makes the full query contain it twice, not exactly
once. -/
theorem C3_roundtrip_counterexample :
    ((store (runStores [⟨"a", 1, "p1"⟩, ⟨"a", 1, "p2"⟩, ⟨"a", 1, "p3"⟩,
        ⟨"a", 1, "p4"⟩]) ⟨"b", 2, "q"⟩).1 = Except.ok () ∧
      (get_events (store (runStores [⟨"a", 1, "p1"⟩, ⟨"a", 1, "p2"⟩, ⟨"a", 1, "p3"⟩,
        ⟨"a", 1, "p4"⟩]) ⟨"b", 2, "q"⟩).2 none none none).1 =
        Except.error (RetrieveError.ResultTooLarge 4)) ∧
    ((store (runStores [⟨"a", 1, "p"⟩]) ⟨"a", 1, "p"⟩).1 = Except.ok () ∧
      (get_events (store (runStores [⟨"a", 1, "p"⟩]) ⟨"a", 1, "p"⟩).2
          none none none).1 = Except.ok [⟨"a", 1, "p"⟩, ⟨"a", 1, "p"⟩] ∧
      ([⟨"a", 1, "p"⟩, ⟨"a", 1, "p"⟩] : List Event).count ⟨"a", 1, "p"⟩ = 2) :=
  ⟨⟨rfl, rfl⟩, rfl, rfl, rfl⟩

/-- C3 (amended): for every accepted event `e` and prior reachable state,
after `store(e)` succeeds, whenever the full query returns a sequence at all
(it returns `ResultTooLarge` when more than the configured maximum events are
stored), that sequence contains `e` exactly one more time than the full query
before the store did — in particular at least once, and exactly once when `e`
was not already stored. -/
theorem C3_roundtrip_amended (hist : List Event) (e : Event)
    (hacc : e.event_type ≠ "winter wrap up") (l : List Event)
    (hok : (get_events (store (runStores hist) e).2 none none none).1 =
      Except.ok l) :
    (store (runStores hist) e).1 = Except.ok () ∧
    ∃ l₀, (get_events (runStores hist) none none none).1 = Except.ok l₀ ∧
      l.count e = l₀.count e + 1 := by
  refine ⟨store_accepted_fst hacc, ?_⟩
  rw [← runStores_append, get_events_fst, matchingEvents_runStores, capResult_eq] at hok
  have hmq : (decide (e.event_type ≠ "winter wrap up") &&
      matchesQuery none none none e) = true := by
    simp [matchesQuery, inRange, hacc]
  rw [specMatches_append, if_pos hmq] at hok
  set L := specMatches hist none none none with hL
  by_cases hlen : MAX_QUERIED_EVENTS < (insertByTs e L).length
  · rw [if_pos hlen] at hok
    exact Except.noConfusion hok
  · rw [if_neg hlen] at hok
    injection hok with h₁
    have hLlen : (insertByTs e L).length = L.length + 1 := by
      rw [(insertByTs_perm e L).length_eq]
      rfl
    rw [hLlen] at hlen
    have hcap : ¬ MAX_QUERIED_EVENTS < L.length := by omega
    refine ⟨L, ?_, ?_⟩
    · rw [get_events_fst, matchingEvents_runStores, capResult_eq, if_neg hcap]
    · rw [← h₁, (insertByTs_perm e L).count_eq, List.count_cons_self]

theorem C3_roundtrip_amended_witness :
    (store (runStores []) ⟨"a", 1, "p"⟩).1 = Except.ok () ∧
    ∃ l₀, (get_events (runStores []) none none none).1 = Except.ok l₀ ∧
      ([⟨"a", 1, "p"⟩] : List Event).count ⟨"a", 1, "p"⟩ = l₀.count ⟨"a", 1, "p"⟩ + 1 :=
  C3_roundtrip_amended [] ⟨"a", 1, "p"⟩ (by decide) [⟨"a", 1, "p"⟩] rfl

/-- C4 counterexample: with five stored events of type `"a"`, the type-filter
query returns `ResultTooLarge(4)` rather than the five matching events, so
the claim fails as stated for that stored set. -/
theorem C4_type_filter_counterexample :
    (get_events (runStores [⟨"a", 1, "p1"⟩, ⟨"a", 1, "p2"⟩, ⟨"a", 2, "p3"⟩,
        ⟨"a", 2, "p4"⟩, ⟨"a", 3, "p5"⟩]) (some "a") none none).1 =
      Except.error (RetrieveError.ResultTooLarge 4) := rfl

/-- C4 (amended): `get_events(Some t, None, None)` returns exactly the stored
events of type `t` in timestamp-then-insertion order whenever at most
`MAX_QUERIED_EVENTS` such events exist, and `ResultTooLarge(maximum)`
otherwise. The returned order (`specMatches`) is a permutation of the
accepted events of type `t`, is sorted by timestamp, and is stable: the
events of every fixed timestamp keep their insertion order. -/
theorem C4_type_filter_amended (hist : List Event) (t : String) :
    ((get_events (runStores hist) (some t) none none).1 =
      if MAX_QUERIED_EVENTS < (specMatches hist (some t) none none).length then
        Except.error (RetrieveError.ResultTooLarge MAX_QUERIED_EVENTS)
      else Except.ok (specMatches hist (some t) none none)) ∧
    List.Perm (specMatches hist (some t) none none)
      ((acceptedEvents hist).filter (fun e => decide (e.event_type = t))) ∧
    (specMatches hist (some t) none none).Pairwise
      (fun a b => a.timestamp ≤ b.timestamp) ∧
    (∀ ts : Timestamp,
      (specMatches hist (some t) none none).filter
          (fun x => decide (x.timestamp = ts)) =
        ((acceptedEvents hist).filter (fun e => decide (e.event_type = t))).filter
          (fun x => decide (x.timestamp = ts))) := by
  have hfeq : (acceptedEvents hist).filter (matchesQuery (some t) none none) =
      (acceptedEvents hist).filter (fun e => decide (e.event_type = t)) :=
    List.filter_congr (fun x _ => by simp [matchesQuery, inRange])
  refine ⟨?_, ?_, sortByTs_sorted _, ?_⟩
  · rw [get_events_fst, matchingEvents_runStores, capResult_eq]
  · rw [specMatches, hfeq]
    exact sortByTs_perm _
  · intro ts
    rw [specMatches, hfeq, sortByTs_filter_ts]

theorem C4_type_filter_amended_witness :
    (get_events (runStores [⟨"login", 4, "x"⟩, ⟨"foo", 6, "y"⟩])
        (some "login") none none).1 =
      Except.ok (specMatches [⟨"login", 4, "x"⟩, ⟨"foo", 6, "y"⟩]
        (some "login") none none) := by
  rw [(C4_type_filter_amended [⟨"login", 4, "x"⟩, ⟨"foo", 6, "y"⟩] "login").1]
  rfl

/-- C5 counterexample: with five stored events of timestamps within `[1, 3]`,
the range query over `[1, 3]` returns `ResultTooLarge(4)` rather than the
five matching events, so the claim fails as stated for that stored set. -/
theorem C5_range_filter_counterexample :
    (get_events (runStores [⟨"a", 1, "p1"⟩, ⟨"a", 1, "p2"⟩, ⟨"a", 2, "p3"⟩,
        ⟨"a", 2, "p4"⟩, ⟨"a", 3, "p5"⟩]) none (some 1) (some 3)).1 =
      Except.error (RetrieveError.ResultTooLarge 4) := rfl

/-- C5 (amended): provided the query does not hit the `BTreeMap::range`
panic — both bounds present with start > end on a non-empty store, see C1 —
`get_events(None, Some a, Some b)` returns exactly the stored events with
`a ≤ timestamp ≤ b` (both bounds inclusive) whenever at most
`MAX_QUERIED_EVENTS` such events exist, and `ResultTooLarge(maximum)`
otherwise; `get_events(None, None, None)` never panics and returns all stored
events under the same size cap. -/
theorem C5_range_filter_amended (hist : List Event) (a b : Timestamp) :
    (get_events_panics (runStores hist) none (some a) (some b) = false →
      (get_events (runStores hist) none (some a) (some b)).1 =
        if MAX_QUERIED_EVENTS < (specMatches hist none (some a) (some b)).length then
          Except.error (RetrieveError.ResultTooLarge MAX_QUERIED_EVENTS)
        else Except.ok (specMatches hist none (some a) (some b))) ∧
    List.Perm (specMatches hist none (some a) (some b))
      ((acceptedEvents hist).filter
        (fun e => decide (a ≤ e.timestamp) && decide (e.timestamp ≤ b))) ∧
    get_events_panics (runStores hist) none none none = false ∧
    ((get_events (runStores hist) none none none).1 =
      if MAX_QUERIED_EVENTS < (specMatches hist none none none).length then
        Except.error (RetrieveError.ResultTooLarge MAX_QUERIED_EVENTS)
      else Except.ok (specMatches hist none none none)) ∧
    List.Perm (specMatches hist none none none) (acceptedEvents hist) := by
  refine ⟨fun _ => ?_, ?_, ?_, ?_, ?_⟩
  · rw [get_events_fst, matchingEvents_runStores, capResult_eq]
  · have hfeq : (acceptedEvents hist).filter (matchesQuery none (some a) (some b)) =
        (acceptedEvents hist).filter
          (fun e => decide (a ≤ e.timestamp) && decide (e.timestamp ≤ b)) :=
      List.filter_congr (fun x _ => by simp [matchesQuery, inRange])
    rw [specMatches, hfeq]
    exact sortByTs_perm _
  · simp [get_events_panics]
  · rw [get_events_fst, matchingEvents_runStores, capResult_eq]
  · have hfeq : (acceptedEvents hist).filter (matchesQuery none none none) =
        acceptedEvents hist :=
      List.filter_eq_self.mpr (fun x _ => by simp [matchesQuery, inRange])
    rw [specMatches, hfeq]
    exact sortByTs_perm _

theorem C5_range_filter_amended_witness :
    (get_events (runStores [⟨"login", 4, "x"⟩, ⟨"foo", 6, "y"⟩])
        none (some 5) (some 9)).1 =
      Except.ok (specMatches [⟨"login", 4, "x"⟩, ⟨"foo", 6, "y"⟩]
        none (some 5) (some 9)) := by
  rw [(C5_range_filter_amended [⟨"login", 4, "x"⟩, ⟨"foo", 6, "y"⟩] 5 9).1 (by decide)]
  rfl

/-- C6: querying a type of which no accepted event was ever stored returns
`Ok []` for every pair of bounds — an empty result, not an error. -/
theorem C6_unknown_type_ok (hist : List Event) (t : String)
    (h : ∀ e ∈ acceptedEvents hist, e.event_type ≠ t)
    (start stop : Option Timestamp) :
    (get_events (runStores hist) (some t) start stop).1 = Except.ok [] := by
  rw [get_events_fst, matchingEvents_runStores, capResult_eq]
  have hnil : specMatches hist (some t) start stop = [] := by
    rw [specMatches]
    have hfil : (acceptedEvents hist).filter (matchesQuery (some t) start stop) = [] := by
      apply List.filter_eq_nil_iff.mpr
      intro e he hcontra
      simp only [matchesQuery, Bool.and_eq_true, decide_eq_true_eq] at hcontra
      exact h e he hcontra.1
    rw [hfil]
    rfl
  rw [hnil]
  rfl

theorem C6_unknown_type_ok_witness :
    (get_events (runStores [⟨"login", 4, "x"⟩]) (some "logout") none none).1 =
      Except.ok [] :=
  C6_unknown_type_ok [⟨"login", 4, "x"⟩] "logout" (by decide) none none

/-- C7: storing an event of the rejected type returns
`InvalidEventType(label)` carrying that event_type and mutates nothing:
every query after the rejected store returns exactly what it returned
before. -/
theorem C7_rejection_non_mutating (s : InMemoryStorage) (e : Event)
    (h : e.event_type = "winter wrap up") :
    store s e = (Except.error (StoreError.InvalidEventType e.event_type), s) ∧
    ∀ (filt : Option String) (start stop : Option Timestamp),
      get_events (store s e).2 filt start stop = get_events s filt start stop := by
  refine ⟨store_rejected h, ?_⟩
  intro filt start stop
  rw [store_rejected_snd h]

theorem C7_rejection_non_mutating_witness :
    get_events (store (runStores [⟨"a", 1, "p"⟩]) ⟨"winter wrap up", 2, "q"⟩).2
        none none none =
      get_events (runStores [⟨"a", 1, "p"⟩]) none none none :=
  (C7_rejection_non_mutating (runStores [⟨"a", 1, "p"⟩])
    ⟨"winter wrap up", 2, "q"⟩ rfl).2 none none none

/-- C8: after every sequence of `store` calls from the empty table: (I1) an
id occurs in `events_by_timestamp` or in a per-type index exactly when it is
a key of `event_by_id`; (I2) each stored id occurs exactly once in
`events_by_timestamp`, only at the bucket of its event's timestamp; (I3) each
stored id occurs exactly once across the per-type index, only in the chain of
its own event_type at the bucket of its timestamp; (I4) within every bucket
of either index the ids are strictly ascending (insertion order). -/
theorem C8_invariants (hist : List Event) :
    (∀ i : EventId,
      (i ∈ tsIndexIds (runStores hist).events.events_by_timestamp ∨
        i ∈ typeIndexIds (runStores hist).events.events_by_type_by_timestamp) ↔
      ∃ e, assocGet (runStores hist).events.event_by_id i = some e) ∧
    (∀ i e, assocGet (runStores hist).events.event_by_id i = some e →
      tsIndexCount (runStores hist).events.events_by_timestamp i = 1 ∧
      ∀ p ∈ (runStores hist).events.events_by_timestamp, i ∈ p.2 →
        p.1 = e.timestamp) ∧
    (∀ i e, assocGet (runStores hist).events.event_by_id i = some e →
      typeIndexCount (runStores hist).events.events_by_type_by_timestamp i = 1 ∧
      ∀ q ∈ (runStores hist).events.events_by_type_by_timestamp, ∀ p ∈ q.2,
        i ∈ p.2 → q.1 = e.event_type ∧ p.1 = e.timestamp) ∧
    (∀ p ∈ (runStores hist).events.events_by_timestamp,
      p.2.Pairwise (fun x y => x < y)) ∧
    (∀ q ∈ (runStores hist).events.events_by_type_by_timestamp, ∀ p ∈ q.2,
      p.2.Pairwise (fun x y => x < y)) := by
  obtain ⟨h1, h2, h3, h4, h5, h6, h7, h8, h9, h10, h11⟩ := Inv_runStores hist
  refine ⟨?_, ?_, ?_, h4, h8⟩
  · intro i
    constructor
    · intro hi
      rcases hi with hi | hi
      · simp only [tsIndexIds, List.mem_flatMap] at hi
        obtain ⟨p, hp, hip⟩ := hi
        obtain ⟨ev, hev, _⟩ := h3 p hp i hip
        exact ⟨ev, hev⟩
      · simp only [typeIndexIds, tsIndexIds, List.mem_flatMap] at hi
        obtain ⟨q, hq, p, hp, hip⟩ := hi
        obtain ⟨ev, hev, _, _⟩ := h7 q hq p hp i hip
        exact ⟨ev, hev⟩
    · rintro ⟨e, he⟩
      left
      have hone := h10 (i, e) (assocGet_mem he)
      simp only [tsIndexCount] at hone
      by_contra hni
      rw [List.count_eq_zero.mpr hni] at hone
      exact absurd hone (by decide)
  · intro i e he
    have hmem := assocGet_mem he
    refine ⟨h10 (i, e) hmem, ?_⟩
    intro p hp hip
    obtain ⟨ev, hev, hts⟩ := h3 p hp i hip
    rw [he] at hev
    injection hev with hh
    subst hh
    exact hts.symm
  · intro i e he
    have hmem := assocGet_mem he
    refine ⟨h11 (i, e) hmem, ?_⟩
    intro q hq p hp hip
    obtain ⟨ev, hev, hts, hty⟩ := h7 q hq p hp i hip
    rw [he] at hev
    injection hev with hh
    subst hh
    exact ⟨hty.symm, hts.symm⟩

theorem C8_invariants_witness :
    tsIndexCount (runStores [⟨"a", 1, "p"⟩]).events.events_by_timestamp 1 = 1 :=
  ((C8_invariants [⟨"a", 1, "p"⟩]).2.1 1 ⟨"a", 1, "p"⟩ rfl).1

/-- C9: the acceptance policy is exactly inequality with the literal
`"winter wrap up"`: `store` succeeds if and only if the event_type differs
from that string; in particular an event with an empty event_type is
accepted. -/
theorem C9_acceptance_policy (s : InMemoryStorage) (e : Event) :
    ((store s e).1 = Except.ok () ↔ e.event_type ≠ "winter wrap up") ∧
    (e.event_type = "" → (store s e).1 = Except.ok ()) := by
  constructor
  · constructor
    · intro h hcontra
      rw [store_rejected hcontra] at h
      exact Except.noConfusion h
    · intro h
      exact store_accepted_fst h
  · intro h
    apply store_accepted_fst
    rw [h]
    decide

theorem C9_acceptance_policy_witness :
    (store initialStorage ⟨"", 1, "p"⟩).1 = Except.ok () :=
  (C9_acceptance_policy initialStorage ⟨"", 1, "p"⟩).2 rfl

/-- C10: `get_events` never mutates the engine state: for every state and
every combination of type filter and bounds, the state returned alongside the
result — the id counter and all three indexes — equals the state passed in,
whether the result is `Ok` or `Err(ResultTooLarge)`. -/
theorem C10_query_pure (s : InMemoryStorage) (filt : Option String)
    (start stop : Option Timestamp) :
    (get_events s filt start stop).2 = s :=
  get_events_snd s filt start stop

end CsideEventTracker
